import Mathlib

/-!
Verification development for the BitString repository (`BitString.cpp` and the
split library sources).  The C++ functions `ReadBitString`, `WriteBitString`,
`SetBit` and `SetSingleBit` are shallowly embedded over byte buffers modelled
as `List Nat` (each entry a byte value `< 256`).  The source static-asserts a
little-endian host (`std::endian::native == std::endian::little`), so the
hardware-endianness branches are concretized for a little-endian machine:
`endiannessAdjustment` is `0`, the scratch union's bytes correspond to the low
bytes of its `uint64_t` view, and a byte reversal happens exactly when the
data endianness is big.
-/

/-- Model of `std::endian` as used by the repository (data endianness). -/
inductive Endianness where
  | little
  | big
  deriving DecidableEq

/-- `endianness == std::endian::big` as a boolean. -/
def Endianness.isBig : Endianness → Bool
  | .little => false
  | .big => true

/-- Model of the `memcpy` load into the zero-initialized scratch union on a
little-endian host: byte `i` of the register window is `data[b + i]`
(the C++ code only ever calls this with `b + len ≤ data.length`, so the
`getD` default `0` is never hit on those calls). -/
def loadBytes (data : List Nat) (b : Nat) : Nat → List Nat
  | 0 => []
  | len + 1 => data.getD b 0 :: loadBytes data (b + 1) len

/-- Value of the scratch register (`value.asUint64` on a little-endian host)
holding the given byte list in its low bytes, high bytes zero. -/
def bytesToNat : List Nat → Nat
  | [] => 0
  | x :: r => x + 256 * bytesToNat r

/-- The low `len` bytes of the scratch register holding value `v`
(little-endian host byte order), as copied out by `memcpy`. -/
def natToBytes (v : Nat) : Nat → List Nat
  | 0 => []
  | len + 1 => v % 256 :: natToBytes (v / 256) len

/-- Bitwise complement `~x` on the 64-bit scratch register. -/
def u64not (x : Nat) : Nat := (2 ^ 64 - 1) ^^^ x

/-- The C++ shift amount
`(isBeData ? -(bitOffset32Bit + bitSize) : bitOffset32Bit) & 7`, where
`bitOffset32Bit = (uint32_t)bitOffset` and the addition/negation happen in
`size_t` (64-bit) arithmetic. -/
def shiftAmount (isBeData : Bool) (bitOffset bitSize : Nat) : Nat :=
  if isBeData then
    ((2 ^ 64 - (bitOffset % 2 ^ 32 + bitSize) % 2 ^ 64) % 2 ^ 64) &&& 7
  else
    (bitOffset % 2 ^ 32) &&& 7

/-- Embedding of `ReadBitString` (`src/BitString.cpp:94-145`) for a
little-endian host.  A `bitSize > 32` throws `std::invalid_argument`,
modelled as `Except.error`.  The span-end sum `bitOffset + bitSize + 7` is
computed in `size_t`, so it wraps mod `2 ^ 64`; when it wraps,
`dataByteOffsetEnd` drops below `dataByteOffsetBegin`, the `size_t`
subtraction `elementByteSize` underflows to a huge value and the `memcpy`
is an out-of-bounds read — undefined behaviour, modelled as
`Except.error`.  The final `static_cast<uint32_t>` is the `% 2 ^ 32`. -/
def ReadBitString (data : List Nat) (bitOffset bitSize : Nat)
    (endianness : Endianness) : Except String Nat :=
  if bitSize > 32 then
    Except.error ("Bit size must be 32 or less")
  else
    let dataByteSize := data.length
    let dataByteOffsetBegin := min (bitOffset / 8) dataByteSize
    let dataByteOffsetEnd :=
      min ((bitOffset + bitSize + 7) % 2 ^ 64 / 8) dataByteSize
    if dataByteOffsetEnd < dataByteOffsetBegin then
      Except.error ("undefined behaviour: out-of-bounds memcpy")
    else
      let elementByteSize := dataByteOffsetEnd - dataByteOffsetBegin
      let loaded := loadBytes data dataByteOffsetBegin elementByteSize
      let reg := if endianness.isBig then loaded.reverse else loaded
      let v := bytesToNat reg
      let s := shiftAmount endianness.isBig bitOffset bitSize
      let elementMask := (1 <<< bitSize) - 1
      Except.ok (((v >>> s) &&& elementMask) % 2 ^ 32)

/-- Embedding of `WriteBitString` (`src/BitString.cpp:150-205`) for a
little-endian host.  Returns the updated buffer; a `bitSize > 32` throws
before touching the buffer, modelled as `Except.error`.  The span-end sum
wraps in `size_t` exactly as in `ReadBitString`; the underflowed `memcpy`
(undefined behaviour, before any store) is modelled as `Except.error`.
The `uint32_t` parameter conversion of `newValue` is the `% 2 ^ 32`. -/
def WriteBitString (data : List Nat) (bitOffset bitSize : Nat)
    (endianness : Endianness) (newValue : Nat) : Except String (List Nat) :=
  if bitSize > 32 then
    Except.error ("Bit size must be 32 or less")
  else
    let dataByteSize := data.length
    let dataByteOffsetBegin := min (bitOffset / 8) dataByteSize
    let dataByteOffsetEnd :=
      min ((bitOffset + bitSize + 7) % 2 ^ 64 / 8) dataByteSize
    if dataByteOffsetEnd < dataByteOffsetBegin then
      Except.error ("undefined behaviour: out-of-bounds memcpy")
    else
      let elementByteSize := dataByteOffsetEnd - dataByteOffsetBegin
      let loaded := loadBytes data dataByteOffsetBegin elementByteSize
      let reg := if endianness.isBig then loaded.reverse else loaded
      let oldValue := bytesToNat reg
      let s := shiftAmount endianness.isBig bitOffset bitSize
      let elementMask := u64not (((1 <<< bitSize) - 1) <<< s)
      let merged := (oldValue &&& elementMask) ||| ((newValue % 2 ^ 32) <<< s)
      let outBytesLe := natToBytes merged elementByteSize
      let outBytes :=
        if endianness.isBig then outBytesLe.reverse else outBytesLe
      Except.ok (data.take dataByteOffsetBegin ++ outBytes
        ++ data.drop dataByteOffsetEnd)

/-- Embedding of `SetBit` (`src/BitString.cpp:290-300`).  The function
performs `data[bitOffset / 8] |= ...` with no bounds check (only an
`assert`); an out-of-range `std::span` access is undefined behaviour,
modelled as `none`.  The `|=` on a `uint8_t` truncates to a byte. -/
def SetBit (data : List Nat) (bitOffset : Nat) (reversedBitsInByte : Bool) :
    Option (List Nat) :=
  let bo := bitOffset ^^^ (if reversedBitsInByte then 7 else 0)
  if bo / 8 < data.length then
    some (data.set (bo / 8) ((data.getD (bo / 8) 0 ||| (1 <<< (bo &&& 7))) % 256))
  else
    none

/-- Embedding of `SetSingleBit` (`src/unnamed/part_001:118-132`), the split
library revision of `SetBit`: identical except the access is guarded, making
an out-of-range `bitOffset` a no-op. -/
def SetSingleBit (data : List Nat) (bitOffset : Nat)
    (reversedBitsInByte : Bool) : List Nat :=
  let byteOffset := bitOffset / 8
  if byteOffset < data.length then
    let bo := bitOffset ^^^ (if reversedBitsInByte then 7 else 0)
    data.set byteOffset ((data.getD byteOffset 0 ||| (1 <<< (bo &&& 7))) % 256)
  else
    data

/-- The physical bit of a buffer at absolute bit position `p` under a
bit-packing convention: with little-endian layout bit `p` is bit `p % 8`
(counted from the least-significant bit) of byte `p / 8`; with big-endian
layout it is bit `7 - p % 8`. -/
def bitAt (data : List Nat) (endianness : Endianness) (p : Nat) : Bool :=
  match endianness with
  | .little => Nat.testBit (data.getD (p / 8) 0) (p % 8)
  | .big => Nat.testBit (data.getD (p / 8) 0) (7 - p % 8)

/-- Which bit of the field value occupies absolute position `bitOffset + i`:
bit `i` for little-endian layout, bit `bitWidth - 1 - i` for big-endian
layout (most-significant bit first). -/
def fieldBitIndex (endianness : Endianness) (bitWidth i : Nat) : Nat :=
  match endianness with
  | .little => i
  | .big => bitWidth - 1 - i

/-! ### Basic facts about the byte-register helpers -/

theorem loadBytes_length (data : List Nat) (b len : Nat) :
    (loadBytes data b len).length = len := by
  induction len generalizing b with
  | zero => rfl
  | succ n ih => simp [loadBytes, ih]

theorem loadBytes_getD (data : List Nat) (b len i : Nat) (h : i < len) :
    (loadBytes data b len).getD i 0 = data.getD (b + i) 0 := by
  induction len generalizing b i with
  | zero => omega
  | succ n ih =>
    cases i with
    | zero => simp [loadBytes]
    | succ j =>
      have := ih (b + 1) j (by omega)
      simpa [loadBytes, Nat.add_assoc, Nat.add_comm 1 j] using this

theorem loadBytes_congr (d1 d2 : List Nat) (b1 b2 len : Nat)
    (h : ∀ i, i < len → d1.getD (b1 + i) 0 = d2.getD (b2 + i) 0) :
    loadBytes d1 b1 len = loadBytes d2 b2 len := by
  induction len generalizing b1 b2 with
  | zero => rfl
  | succ n ih =>
    simp only [loadBytes]
    refine congrArg₂ _ ?_ (ih (b1 + 1) (b2 + 1) ?_)
    · simpa using h 0 (by omega)
    · intro i hi
      have := h (i + 1) (by omega)
      simpa [Nat.add_assoc, Nat.add_comm 1 i] using this

theorem natToBytes_length (v len : Nat) : (natToBytes v len).length = len := by
  induction len generalizing v with
  | zero => rfl
  | succ n ih => simp [natToBytes, ih]

theorem natToBytes_mem_lt (v len : Nat) :
    ∀ x ∈ natToBytes v len, x < 256 := by
  induction len generalizing v with
  | zero => intro x hx; simp [natToBytes] at hx
  | succ n ih =>
    intro x hx
    simp only [natToBytes, List.mem_cons] at hx
    rcases hx with h | h
    · omega
    · exact ih (v / 256) x h

theorem bytesToNat_natToBytes (v len : Nat) :
    bytesToNat (natToBytes v len) = v % 2 ^ (8 * len) := by
  induction len generalizing v with
  | zero => simp [natToBytes, bytesToNat, Nat.mod_one]
  | succ n ih =>
    have h256 : (256 : Nat) = 2 ^ 8 := by norm_num
    have hpow : (2 : Nat) ^ (8 * (n + 1)) = 2 ^ 8 * 2 ^ (8 * n) := by
      rw [← pow_add]; ring_nf
    rw [natToBytes, bytesToNat, ih, hpow, h256, Nat.mod_mul]

theorem testBit_natToBytes (v len i k : Nat) (hi : i < len) (hk : k < 8) :
    Nat.testBit ((natToBytes v len).getD i 0) k = Nat.testBit v (8 * i + k) := by
  induction len generalizing v i with
  | zero => omega
  | succ n ih =>
    cases i with
    | zero =>
      rw [natToBytes, List.getD_cons_zero,
        show (256 : Nat) = 2 ^ 8 by norm_num, Nat.testBit_mod_two_pow]
      simp [hk]
    | succ j =>
      have hdiv : v / 256 = v >>> 8 := by
        rw [Nat.shiftRight_eq_div_pow]
      have h8 : 8 + (8 * j + k) = 8 * (j + 1) + k := by ring
      rw [natToBytes, List.getD_cons_succ, ih (v / 256) j (by omega), hdiv,
        Nat.testBit_shiftRight, h8]

theorem testBit_bytesToNat (l : List Nat) (hl : ∀ x ∈ l, x < 256) (j : Nat) :
    Nat.testBit (bytesToNat l) j = Nat.testBit (l.getD (j / 8) 0) (j % 8) := by
  induction l generalizing j with
  | nil => simp [bytesToNat]
  | cons x r ih =>
    have hx : x < 2 ^ 8 := by
      have := hl x (List.mem_cons_self x r)
      omega
    have hr : ∀ y ∈ r, y < 256 := fun y hy => hl y (List.mem_cons_of_mem _ hy)
    have hrw : bytesToNat (x :: r) = 2 ^ 8 * bytesToNat r + x := by
      rw [bytesToNat]; ring_nf
    rw [hrw, Nat.testBit_mul_pow_two_add _ hx]
    by_cases hj : j < 8
    · have h1 : j / 8 = 0 := by omega
      have h2 : j % 8 = j := by omega
      rw [if_pos hj, h1, h2, List.getD_cons_zero]
    · have h1 : (x :: r).getD (j / 8) 0 = r.getD ((j - 8) / 8) 0 := by
        have hq : j / 8 = (j - 8) / 8 + 1 := by omega
        rw [hq, List.getD_cons_succ]
      have h2 : j % 8 = (j - 8) % 8 := by omega
      rw [if_neg hj, h1, h2, ih hr (j - 8)]

theorem bytesToNat_lt (l : List Nat) (hl : ∀ x ∈ l, x < 256) :
    bytesToNat l < 2 ^ (8 * l.length) := by
  apply Nat.lt_pow_two_of_testBit
  intro i hi
  rw [testBit_bytesToNat l hl, List.getD_eq_default _ _ (by omega)]
  simp

theorem getD_reverse (l : List Nat) (i : Nat) (h : i < l.length) :
    l.reverse.getD i 0 = l.getD (l.length - 1 - i) 0 := by
  rw [List.getD_eq_getElem?_getD, List.getD_eq_getElem?_getD,
    List.getElem?_reverse h]

/-! ### The shift amount -/

theorem shiftAmount_le (isBe : Bool) (off w : Nat) :
    shiftAmount isBe off w ≤ 7 := by
  unfold shiftAmount
  split <;> exact Nat.and_le_right

theorem shiftAmount_little (off w : Nat) : shiftAmount false off w = off % 8 := by
  rw [shiftAmount, if_neg (by simp), show (7 : Nat) = 2 ^ 3 - 1 by norm_num,
    Nat.and_pow_two_sub_one_eq_mod]
  omega

theorem shiftAmount_big (off w : Nat) :
    shiftAmount true off w = (8 - (off + w) % 8) % 8 := by
  rw [shiftAmount, if_pos (by simp), show (7 : Nat) = 2 ^ 3 - 1 by norm_num,
    Nat.and_pow_two_sub_one_eq_mod]
  omega

/-! ### Writing the register window back into the buffer -/

theorem writeback_getD (data mid : List Nat) (b e j : Nat) (hbe : b ≤ e)
    (he : e ≤ data.length) (hmid : mid.length = e - b) :
    (data.take b ++ mid ++ data.drop e).getD j 0 =
      if j < b then data.getD j 0
      else if j < e then mid.getD (j - b) 0
      else data.getD j 0 := by
  have hbt : (data.take b).length = b := by
    simp [List.length_take]
    omega
  have htm : (data.take b ++ mid).length = e := by
    simp [hbt, hmid]
    omega
  by_cases h1 : j < b
  · rw [if_pos h1, List.getD_eq_getElem?_getD, List.getD_eq_getElem?_getD,
      List.getElem?_append_left (by rw [htm]; omega),
      List.getElem?_append_left (by rw [hbt]; omega),
      List.getElem?_take_of_lt h1]
  · rw [if_neg h1]
    by_cases h2 : j < e
    · rw [if_pos h2, List.getD_eq_getElem?_getD, List.getD_eq_getElem?_getD,
        List.getElem?_append_left (by rw [htm]; omega),
        List.getElem?_append_right (by rw [hbt]; omega), hbt]
    · rw [if_neg h2, List.getD_eq_getElem?_getD, List.getD_eq_getElem?_getD,
        List.getElem?_append_right (by rw [htm]; omega), htm,
        List.getElem?_drop, show e + (j - e) = j by omega]

/-! ### Bits of the merged register -/

theorem merged_testBit (v nv s w : Nat) (hs : s ≤ 7) (hnv : nv < 2 ^ w)
    (j : Nat) (hj : j < 64) :
    Nat.testBit ((v &&& u64not ((2 ^ w - 1) <<< s)) ||| (nv <<< s)) j =
      if s ≤ j ∧ j < s + w then Nat.testBit nv (j - s)
      else Nat.testBit v j := by
  rw [u64not]
  simp only [Nat.testBit_or, Nat.testBit_and, Nat.testBit_xor,
    Nat.testBit_shiftLeft, Nat.testBit_two_pow_sub_one]
  have h64 : (decide (j < 64)) = true := by simp [hj]
  rcases Nat.lt_or_ge j s with hjs | hjs
  · have hd1 : decide (j ≥ s) = false := by simp; omega
    rw [if_neg (by omega)]
    simp [hd1, h64]
  · have hd1 : decide (j ≥ s) = true := by simp [hjs]
    rcases Nat.lt_or_ge j (s + w) with hjw | hjw
    · have hd2 : decide (j - s < w) = true := by simp; omega
      rw [if_pos (by omega)]
      simp [hd1, hd2, h64]
    · have hd2 : decide (j - s < w) = false := by simp; omega
      have hnb : Nat.testBit nv (j - s) = false := by
        apply Nat.testBit_lt_two_pow
        calc nv < 2 ^ w := hnv
          _ ≤ 2 ^ (j - s) := Nat.pow_le_pow_right (by norm_num) (by omega)
      rw [if_neg (by omega)]
      simp [hd1, hd2, h64, hnb]

theorem extract_merged (v nv s w len : Nat) (hnv : nv < 2 ^ w)
    (hsw : s + w ≤ 8 * len) (hlen : 8 * len ≤ 64) (hs : s ≤ 7) :
    ((((v &&& u64not ((2 ^ w - 1) <<< s)) ||| (nv <<< s)) % 2 ^ (8 * len))
      >>> s) &&& (2 ^ w - 1) = nv := by
  apply Nat.eq_of_testBit_eq
  intro i
  simp only [Nat.testBit_and, Nat.testBit_shiftRight, Nat.testBit_mod_two_pow,
    Nat.testBit_two_pow_sub_one]
  rcases Nat.lt_or_ge i w with hiw | hiw
  · have h1 : decide (s + i < 8 * len) = true := by simp; omega
    have h2 : decide (i < w) = true := by simp [hiw]
    rw [h1, h2]
    have := merged_testBit v nv s w hs hnv (s + i) (by omega)
    rw [this, if_pos (by omega)]
    simp
  · have h2 : decide (i < w) = false := by simp; omega
    have hnb : Nat.testBit nv i = false := by
      apply Nat.testBit_lt_two_pow
      calc nv < 2 ^ w := hnv
        _ ≤ 2 ^ i := Nat.pow_le_pow_right (by norm_num) hiw
    rw [h2, hnb]
    simp

theorem list_eq_of_getD (l1 l2 : List Nat) (hlen : l1.length = l2.length)
    (h : ∀ i, i < l1.length → l1.getD i 0 = l2.getD i 0) : l1 = l2 := by
  apply List.ext_getElem hlen
  intro i h1 h2
  have := h i h1
  rwa [List.getD_eq_getElem _ _ h1, List.getD_eq_getElem _ _ h2] at this

/-- C1.  Round-trip: for every buffer, both endiannesses, every
`bitWidth ∈ [1, 32]`, every `bitOffset` whose field lies wholly within the
buffer, and every value masked to `bitWidth` bits, reading the field back
after `WriteBitString` returns exactly that value. -/
theorem readBitString_writeBitString_roundTrip
    (data out : List Nat) (off w : Nat) (e : Endianness) (nv : Nat)
    (hw1 : 1 ≤ w) (hw : w ≤ 32) (hin : off + w ≤ 8 * data.length)
    (hnv : nv < 2 ^ w)
    (hout : WriteBitString data off w e nv = Except.ok out) :
    ReadBitString out off w e = Except.ok nv := by
  by_cases hwrap : off + w + 7 < 2 ^ 64
  case neg =>
    exfalso
    simp only [WriteBitString, if_neg (show ¬ w > 32 by omega),
      if_pos (show min ((off + w + 7) % 2 ^ 64 / 8) data.length <
        min (off / 8) data.length by omega)] at hout
    exact Except.noConfusion hout
  have hmod : (off + w + 7) % 2 ^ 64 = off + w + 7 := Nat.mod_eq_of_lt hwrap
  have hb : min (off / 8) data.length = off / 8 := by omega
  have he : min ((off + w + 7) / 8) data.length = (off + w + 7) / 8 := by omega
  have hnv32 : nv % 2 ^ 32 = nv := by
    apply Nat.mod_eq_of_lt
    calc nv < 2 ^ w := hnv
      _ ≤ 2 ^ 32 := Nat.pow_le_pow_right (by norm_num) hw
  simp only [WriteBitString, if_neg (show ¬ w > 32 by omega), hmod, hb, he,
    if_neg (show ¬ ((off + w + 7) / 8 < off / 8) by omega),
    Nat.one_shiftLeft, hnv32, Except.ok.injEq] at hout
  have hlen_out : out.length = data.length := by
    rw [← hout]
    cases e <;>
      simp [Endianness.isBig, natToBytes_length, List.length_take,
        List.length_drop] <;> omega
  simp only [ReadBitString, if_neg (show ¬ w > 32 by omega), hlen_out, hmod,
    hb, he, if_neg (show ¬ ((off + w + 7) / 8 < off / 8) by omega),
    Nat.one_shiftLeft]
  set b := off / 8 with hbdef
  set eN := (off + w + 7) / 8 with hedef
  set len := eN - b with hlendef
  have hlen64 : 8 * len ≤ 64 := by omega
  cases e with
  | little =>
    simp only [Endianness.isBig, Bool.false_eq_true, if_false] at hout ⊢
    rw [shiftAmount_little] at hout ⊢
    set V := bytesToNat (loadBytes data b len) with hV
    set M := V &&& u64not ((2 ^ w - 1) <<< (off % 8)) ||| nv <<< (off % 8)
      with hM
    have hload : loadBytes out b len = natToBytes M len := by
      apply list_eq_of_getD
      · rw [loadBytes_length, natToBytes_length]
      · intro i hi
        rw [loadBytes_length] at hi
        rw [loadBytes_getD _ _ _ _ hi, ← hout,
          writeback_getD data _ b eN (b + i) (by omega) (by omega)
            (by rw [natToBytes_length]),
          if_neg (by omega), if_pos (by omega)]
        congr 1
        omega
    rw [hload, bytesToNat_natToBytes,
      extract_merged V nv (off % 8) w len hnv (by omega) hlen64 (by omega),
      hnv32]
  | big =>
    simp only [Endianness.isBig, if_true] at hout ⊢
    rw [shiftAmount_big] at hout ⊢
    set V := bytesToNat (loadBytes data b len).reverse with hV
    set M := V &&& u64not ((2 ^ w - 1) <<< ((8 - (off + w) % 8) % 8)) |||
      nv <<< ((8 - (off + w) % 8) % 8) with hM
    have hload : loadBytes out b len = (natToBytes M len).reverse := by
      apply list_eq_of_getD
      · rw [loadBytes_length, List.length_reverse, natToBytes_length]
      · intro i hi
        rw [loadBytes_length] at hi
        rw [loadBytes_getD _ _ _ _ hi, ← hout,
          writeback_getD data _ b eN (b + i) (by omega) (by omega)
            (by rw [List.length_reverse, natToBytes_length]),
          if_neg (by omega), if_pos (by omega)]
        congr 1
        omega
    rw [hload, List.reverse_reverse, bytesToNat_natToBytes,
      extract_merged V nv ((8 - (off + w) % 8) % 8) w len hnv (by omega)
        hlen64 (by omega),
      hnv32]

/-- Witness for C1 at a concrete input: writing value `90` as a 7-bit
little-endian field at bit offset 3 into `[0, 0]` gives `[208, 2]`, and
reading it back returns `90`. -/
theorem readBitString_writeBitString_roundTrip_witness :
    ReadBitString [208, 2] 3 7 Endianness.little = Except.ok 90 :=
  readBitString_writeBitString_roundTrip [0, 0] [208, 2] 3 7
    Endianness.little 90 (by norm_num) (by norm_num) (by norm_num)
    (by norm_num) (by rfl)

theorem getD_lt_256 (data : List Nat) (hb : ∀ x ∈ data, x < 256) (j : Nat) :
    data.getD j 0 < 256 := by
  by_cases h : j < data.length
  · rw [List.getD_eq_getElem _ _ h]
    exact hb _ (List.getElem_mem h)
  · rw [List.getD_eq_default _ _ (by omega)]
    norm_num

theorem loadBytes_mem_lt (data : List Nat) (hb : ∀ x ∈ data, x < 256)
    (b len : Nat) : ∀ x ∈ loadBytes data b len, x < 256 := by
  induction len generalizing b with
  | zero => intro x hx; simp [loadBytes] at hx
  | succ n ih =>
    intro x hx
    simp only [loadBytes, List.mem_cons] at hx
    rcases hx with h | h
    · rw [h]; exact getD_lt_256 data hb b
    · exact ih (b + 1) x h

/-- C2 (amended).  For every byte buffer, every endianness, every
`bitWidth ≤ 32`, a field lying wholly within the buffer, and every value
already masked to `bitWidth` bits, `WriteBitString` stores exactly the low
`bitWidth` bits of the value at `bitOffset` per the field endianness and
leaves every other bit of the buffer unchanged.  (The unamended claim, which
also allows unmasked values and out-of-range fields, is false: the code ORs
in the unmasked `newValue`, see the counterexample.) -/
theorem writeBitString_stores_field_and_frame
    (data out : List Nat) (off w : Nat) (e : Endianness) (nv : Nat)
    (hb : ∀ x ∈ data, x < 256) (hw : w ≤ 32) (hnv : nv < 2 ^ w)
    (hin : off + w ≤ 8 * data.length)
    (hout : WriteBitString data off w e nv = Except.ok out) :
    out.length = data.length ∧
    (∀ p, p < off ∨ off + w ≤ p → bitAt out e p = bitAt data e p) ∧
    (∀ i, i < w → bitAt out e (off + i) =
      Nat.testBit nv (fieldBitIndex e w i)) := by
  by_cases hwrap : off + w + 7 < 2 ^ 64
  case neg =>
    exfalso
    simp only [WriteBitString, if_neg (show ¬ w > 32 by omega),
      if_pos (show min ((off + w + 7) % 2 ^ 64 / 8) data.length <
        min (off / 8) data.length by omega)] at hout
    exact Except.noConfusion hout
  have hmod : (off + w + 7) % 2 ^ 64 = off + w + 7 := Nat.mod_eq_of_lt hwrap
  have hbm : min (off / 8) data.length = off / 8 := by omega
  have hem : min ((off + w + 7) / 8) data.length = (off + w + 7) / 8 := by
    omega
  have hnv32 : nv % 2 ^ 32 = nv := by
    apply Nat.mod_eq_of_lt
    calc nv < 2 ^ w := hnv
      _ ≤ 2 ^ 32 := Nat.pow_le_pow_right (by norm_num) hw
  simp only [WriteBitString, if_neg (show ¬ w > 32 by omega), hmod, hbm, hem,
    if_neg (show ¬ ((off + w + 7) / 8 < off / 8) by omega),
    Nat.one_shiftLeft, hnv32, Except.ok.injEq] at hout
  have hlen_out : out.length = data.length := by
    rw [← hout]
    cases e <;>
      simp [Endianness.isBig, natToBytes_length, List.length_take,
        List.length_drop] <;> omega
  set b := off / 8 with hbdef
  set eN := (off + w + 7) / 8 with hedef
  set len := eN - b with hlendef
  cases e with
  | little =>
    simp only [Endianness.isBig, Bool.false_eq_true, if_false] at hout
    rw [shiftAmount_little] at hout
    set V := bytesToNat (loadBytes data b len) with hV
    set M := V &&& u64not ((2 ^ w - 1) <<< (off % 8)) ||| nv <<< (off % 8)
      with hM
    have hwb : ∀ j, out.getD j 0 =
        if j < b then data.getD j 0
        else if j < eN then (natToBytes M len).getD (j - b) 0
        else data.getD j 0 := by
      intro j
      rw [← hout, writeback_getD data _ b eN j (by omega) (by omega)
        (by rw [natToBytes_length])]
    have hVbit : ∀ jr, jr < 8 * len →
        Nat.testBit V jr = Nat.testBit (data.getD (b + jr / 8) 0) (jr % 8) := by
      intro jr hjr
      rw [hV, testBit_bytesToNat _ (loadBytes_mem_lt data hb b len) jr,
        loadBytes_getD _ _ _ _ (by omega)]
    refine ⟨hlen_out, ?_, ?_⟩
    · intro p hp
      simp only [bitAt]
      rw [hwb (p / 8)]
      by_cases h1 : p / 8 < b
      · rw [if_pos h1]
      · rw [if_neg h1]
        by_cases h2 : p / 8 < eN
        · rw [if_pos h2,
            testBit_natToBytes M len _ _ (by omega) (by omega),
            show 8 * (p / 8 - b) + p % 8 = p - 8 * b by omega,
            merged_testBit V nv (off % 8) w (by omega) hnv _ (by omega),
            if_neg (by omega), hVbit _ (by omega),
            show b + (p - 8 * b) / 8 = p / 8 by omega,
            show (p - 8 * b) % 8 = p % 8 by omega]
        · rw [if_neg h2]
    · intro i hi
      simp only [bitAt, fieldBitIndex]
      rw [hwb ((off + i) / 8), if_neg (by omega), if_pos (by omega),
        testBit_natToBytes M len _ _ (by omega) (by omega),
        show 8 * ((off + i) / 8 - b) + (off + i) % 8 = off + i - 8 * b by
          omega,
        merged_testBit V nv (off % 8) w (by omega) hnv _ (by omega),
        if_pos (by omega),
        show off + i - 8 * b - off % 8 = i by omega]
  | big =>
    simp only [Endianness.isBig, if_true] at hout
    rw [shiftAmount_big] at hout
    set s := (8 - (off + w) % 8) % 8 with hsdef
    set V := bytesToNat (loadBytes data b len).reverse with hV
    set M := V &&& u64not ((2 ^ w - 1) <<< s) ||| nv <<< s with hM
    have hlb : (loadBytes data b len).length = len := loadBytes_length _ _ _
    have hwb : ∀ j, out.getD j 0 =
        if j < b then data.getD j 0
        else if j < eN then (natToBytes M len).reverse.getD (j - b) 0
        else data.getD j 0 := by
      intro j
      rw [← hout, writeback_getD data _ b eN j (by omega) (by omega)
        (by rw [List.length_reverse, natToBytes_length])]
    have hVbit : ∀ jr, jr < 8 * len →
        Nat.testBit V jr =
          Nat.testBit (data.getD (b + (len - 1 - jr / 8)) 0) (jr % 8) := by
      intro jr hjr
      have hmem : ∀ x ∈ (loadBytes data b len).reverse, x < 256 := by
        intro x hx
        exact loadBytes_mem_lt data hb b len x (List.mem_reverse.mp hx)
      rw [hV, testBit_bytesToNat _ hmem jr,
        getD_reverse _ _ (by rw [hlb]; omega), hlb,
        loadBytes_getD _ _ _ _ (by omega)]
    have hout_bit : ∀ p, ¬ p / 8 < b → p / 8 < eN →
        Nat.testBit (out.getD (p / 8) 0) (7 - p % 8) =
          Nat.testBit M (8 * len - 1 - (p - 8 * b)) := by
      intro p h1 h2
      rw [hwb (p / 8), if_neg h1, if_pos h2,
        getD_reverse _ _ (by rw [natToBytes_length]; omega),
        natToBytes_length,
        testBit_natToBytes M len _ _ (by omega) (by omega),
        show 8 * (len - 1 - (p / 8 - b)) + (7 - p % 8)
          = 8 * len - 1 - (p - 8 * b) by omega]
    refine ⟨hlen_out, ?_, ?_⟩
    · intro p hp
      simp only [bitAt]
      by_cases h1 : p / 8 < b
      · rw [hwb (p / 8), if_pos h1]
      · by_cases h2 : p / 8 < eN
        · rw [hout_bit p h1 h2,
            merged_testBit V nv s w (by omega) hnv _ (by omega),
            if_neg (by omega), hVbit _ (by omega),
            show b + (len - 1 - (8 * len - 1 - (p - 8 * b)) / 8) = p / 8 by
              omega,
            show (8 * len - 1 - (p - 8 * b)) % 8 = 7 - p % 8 by omega]
        · rw [hwb (p / 8), if_neg h1, if_neg h2]
    · intro i hi
      simp only [bitAt, fieldBitIndex]
      rw [hout_bit (off + i) (by omega) (by omega),
        merged_testBit V nv s w (by omega) hnv _ (by omega),
        if_pos (by omega),
        show 8 * len - 1 - (off + i - 8 * b) - s = w - 1 - i by omega]

/-- Counterexample for C2 as stated: writing value `2` into a 1-bit
little-endian field at bit offset 0 of the one-byte buffer `[0]` yields
`[2]`: bit 1 of the byte — outside the field `[0, 1)` — changes from 0 to 1,
because `WriteBitString` ORs in the unmasked value. -/
theorem writeBitString_unmasked_value_counterexample :
    WriteBitString [0] 0 1 Endianness.little 2 = Except.ok [2] ∧
    bitAt [2] Endianness.little 1 = true ∧
    bitAt [0] Endianness.little 1 = false := by
  refine ⟨rfl, by decide, by decide⟩

/-- Witness for C2 at a concrete input: writing value `1` as a 1-bit
little-endian field at offset 0 of `[0]` gives `[1]`, stores bit 0 and
preserves all other bits. -/
theorem writeBitString_stores_field_and_frame_witness :
    ([1] : List Nat).length = ([0] : List Nat).length ∧
    (∀ p, p < 0 ∨ 0 + 1 ≤ p →
      bitAt [1] Endianness.little p = bitAt [0] Endianness.little p) ∧
    (∀ i, i < 1 → bitAt [1] Endianness.little (0 + i) =
      Nat.testBit 1 (fieldBitIndex Endianness.little 1 i)) :=
  writeBitString_stores_field_and_frame [0] [1] 0 1 Endianness.little 1
    (by decide) (by decide) (by decide) (by decide) (by rfl)

/-- C3.  For every buffer, bit offset and endianness, calling
`ReadBitString` or `WriteBitString` with `bitSize > 32` fails with the
`std::invalid_argument` error (no clamping), and the failing
`WriteBitString` produces no updated buffer. -/
theorem readBitString_writeBitString_bitSize_gt_32_error
    (data : List Nat) (off w : Nat) (e : Endianness) (nv : Nat)
    (hw : 32 < w) :
    ReadBitString data off w e =
      Except.error ("Bit size must be 32 or less") ∧
    WriteBitString data off w e nv =
      Except.error ("Bit size must be 32 or less") := by
  constructor
  · rw [ReadBitString, if_pos hw]
  · rw [WriteBitString, if_pos hw]

/-- Witness for C3 at a concrete input: `bitSize = 33` on a one-byte
buffer. -/
theorem readBitString_writeBitString_bitSize_gt_32_error_witness :
    ReadBitString [0] 0 33 Endianness.little =
      Except.error ("Bit size must be 32 or less") ∧
    WriteBitString [0] 0 33 Endianness.little 0 =
      Except.error ("Bit size must be 32 or less") :=
  readBitString_writeBitString_bitSize_gt_32_error [0] 0 33
    Endianness.little 0 (by decide)

/-- C8.  For every buffer, bit offset, endianness and `bitWidth ≤ 32`, the
value returned by `ReadBitString` is strictly below `2 ^ bitWidth`. -/
theorem readBitString_lt_two_pow
    (data : List Nat) (off w : Nat) (e : Endianness) (v : Nat)
    (hw : w ≤ 32) (hv : ReadBitString data off w e = Except.ok v) :
    v < 2 ^ w := by
  simp only [ReadBitString, if_neg (show ¬ w > 32 by omega),
    Nat.one_shiftLeft] at hv
  split at hv
  · exact Except.noConfusion hv
  · rw [Except.ok.injEq] at hv
    subst hv
    refine lt_of_le_of_lt (le_trans (Nat.mod_le _ _) Nat.and_le_right) ?_
    exact Nat.sub_lt (Nat.two_pow_pos w) (by norm_num)

/-- Witness for C8 at a concrete input. -/
theorem readBitString_lt_two_pow_witness : (255 : Nat) < 2 ^ 8 :=
  readBitString_lt_two_pow [255, 255] 0 8 Endianness.little 255
    (by decide) (by rfl)

/-- Counterexample for C10 as stated: at `bitOffset = 2 ^ 64 - 7` on a
non-empty buffer the `size_t` sum `bitOffset + bitSize + 7` wraps to 0,
`elementByteSize` underflows, and the `memcpy` is an out-of-bounds read —
the program does not return 0 (undefined behaviour / crash). -/
theorem readBitString_zero_width_wrap_counterexample :
    ReadBitString [0] (2 ^ 64 - 7) 0 Endianness.little =
      Except.error ("undefined behaviour: out-of-bounds memcpy") ∧
    ReadBitString [0] (2 ^ 64 - 7) 0 Endianness.little ≠ Except.ok 0 :=
  ⟨rfl, fun h => Except.noConfusion (Eq.mpr (congrArg _ rfl) h)⟩

/-- C10 (amended).  For every buffer, every endianness, and every bit
offset whose `size_t` span computation does not wrap
(`bitOffset + 7 < 2 ^ 64` — in particular any offset past the end of the
buffer up to that bound), `ReadBitString` with `bitSize = 0` returns 0. -/
theorem readBitString_zero_width (data : List Nat) (off : Nat)
    (e : Endianness) (hnw : off + 7 < 2 ^ 64) :
    ReadBitString data off 0 e = Except.ok 0 := by
  rw [ReadBitString, if_neg (by omega),
    show (off + 0 + 7) % 2 ^ 64 = off + 0 + 7 from Nat.mod_eq_of_lt
      (by omega),
    if_neg (show ¬ (min ((off + 0 + 7) / 8) data.length <
      min (off / 8) data.length) by omega)]
  norm_num

/-- Witness for C10 at a concrete input: a zero-width read past the end of
a one-byte buffer. -/
theorem readBitString_zero_width_witness :
    ReadBitString [0] 100 0 Endianness.big = Except.ok 0 :=
  readBitString_zero_width [0] 100 Endianness.big (by norm_num)

/-- C6.  Concrete scenario C of the test program: writing the 32-bit
IEEE-754 pattern of pi (`0x40490FDB`) at bit offset 5 into a 5-byte zero
buffer yields `60 FB 21 09 08` with little-endian layout and
`02 02 48 7E D8` with big-endian layout, and reading 32 bits back at the
same offset with the same endianness returns `0x40490FDB` in both cases. -/
theorem writeBitString_readBitString_pi_scenario :
    WriteBitString [0, 0, 0, 0, 0] 5 32 Endianness.little 0x40490FDB =
      Except.ok [0x60, 0xFB, 0x21, 0x09, 0x08] ∧
    WriteBitString [0, 0, 0, 0, 0] 5 32 Endianness.big 0x40490FDB =
      Except.ok [0x02, 0x02, 0x48, 0x7E, 0xD8] ∧
    ReadBitString [0x60, 0xFB, 0x21, 0x09, 0x08] 5 32 Endianness.little =
      Except.ok 0x40490FDB ∧
    ReadBitString [0x02, 0x02, 0x48, 0x7E, 0xD8] 5 32 Endianness.big =
      Except.ok 0x40490FDB :=
  ⟨rfl, rfl, rfl, rfl⟩

/-! ### Facts about the intra-byte bit-index reversal `bitOffset ^ 7` -/

theorem xor_seven_div_eight (x : Nat) : (x ^^^ 7) / 8 = x / 8 := by
  have h : ∀ y : Nat, y / 8 = y >>> 3 := fun y => by
    rw [Nat.shiftRight_eq_div_pow]
  rw [h, h]
  apply Nat.eq_of_testBit_eq
  intro i
  simp only [Nat.testBit_shiftRight, Nat.testBit_xor]
  have h7 : Nat.testBit 7 (3 + i) = false := by
    apply Nat.testBit_lt_two_pow
    calc (7 : Nat) < 2 ^ 3 := by norm_num
      _ ≤ 2 ^ (3 + i) := Nat.pow_le_pow_right (by norm_num) (by omega)
  rw [h7, Bool.xor_false]

theorem and_seven_eq_mod_eight (y : Nat) : y &&& 7 = y % 8 := by
  rw [show (7 : Nat) = 2 ^ 3 - 1 by norm_num, Nat.and_pow_two_sub_one_eq_mod]

theorem xor_seven_mod_eight (x : Nat) : (x ^^^ 7) % 8 = (x % 8) ^^^ 7 := by
  rw [← and_seven_eq_mod_eight, ← and_seven_eq_mod_eight,
    Nat.and_xor_distrib_right, Nat.and_self]

theorem xor_seven_eq (n : Nat) : n ^^^ 7 = 8 * (n / 8) + (7 - n % 8) := by
  have h1 := xor_seven_div_eight n
  have h2 := xor_seven_mod_eight n
  have h3 : n % 8 ^^^ 7 = 7 - n % 8 := by
    have h : ∀ r, r < 8 → r ^^^ 7 = 7 - r := by decide
    exact h _ (Nat.mod_lt _ (by norm_num))
  have h4 := Nat.div_add_mod (n ^^^ 7) 8
  omega

/-- C7.  SetBit reversal: for every buffer and in-range bit offset `n`,
setting bit `n` with `reversedBitsInByte = true` produces the same buffer
as setting bit `(n & ~7) | (7 - (n & 7))` — here written
`8 * (n / 8) ||| (7 - n % 8)` — with `reversedBitsInByte = false`, for both
`SetBit` (`BitString.cpp`) and `SetSingleBit` (the split library). -/
theorem setBit_reversal (data : List Nat) (n : Nat)
    (h : n < 8 * data.length) :
    SetBit data n true = SetBit data (8 * (n / 8) ||| (7 - n % 8)) false ∧
    SetSingleBit data n true =
      SetSingleBit data (8 * (n / 8) ||| (7 - n % 8)) false := by
  have hm : 8 * (n / 8) ||| (7 - n % 8) = n ^^^ 7 := by
    have hor := Nat.mul_add_lt_is_or
      (show 7 - n % 8 < 2 ^ 3 by omega) (n / 8)
    rw [xor_seven_eq, show (8 : Nat) * (n / 8) = 2 ^ 3 * (n / 8) by norm_num,
      hor]
  rw [hm]
  constructor
  · simp [SetBit, Nat.xor_zero, xor_seven_div_eight]
  · simp [SetSingleBit, Nat.xor_zero, xor_seven_div_eight]

/-- Witness for C7 at a concrete input: offset 3 in a two-byte buffer;
the reversed index is `8 * 0 ||| (7 - 3) = 4`. -/
theorem setBit_reversal_witness :
    SetBit [0, 0] 3 true = SetBit [0, 0] (8 * (3 / 8) ||| (7 - 3 % 8)) false ∧
    SetSingleBit [0, 0] 3 true =
      SetSingleBit [0, 0] (8 * (3 / 8) ||| (7 - 3 % 8)) false :=
  setBit_reversal [0, 0] 3 (by decide)

/-- C9.  The bit setter is idempotent and monotone: for every byte buffer
and in-range bit offset, applying it twice with identical arguments equals
applying it once, and no bit of the buffer ever changes from 1 to 0; for
in-range offsets `SetBit` (`BitString.cpp`) computes exactly the update of
`SetSingleBit` (the split library), so the properties hold for both. -/
theorem setSingleBit_idempotent_monotone (data : List Nat) (off : Nat) (rev : Bool)
    (hin : off < 8 * data.length) (hb : ∀ x ∈ data, x < 256) :
    SetSingleBit (SetSingleBit data off rev) off rev =
      SetSingleBit data off rev ∧
    (∀ j k, Nat.testBit (data.getD j 0) k = true →
      Nat.testBit ((SetSingleBit data off rev).getD j 0) k = true) ∧
    SetBit data off rev = some (SetSingleBit data off rev) := by
  have hbo : off / 8 < data.length := by omega
  have hbridge : SetBit data off rev = some (SetSingleBit data off rev) := by
    have hdiv : (off ^^^ (if rev then 7 else 0)) / 8 = off / 8 := by
      cases rev
      · simp
      · simp [xor_seven_div_eight]
    simp only [SetBit, SetSingleBit, hdiv, if_pos hbo]
  set m := 1 <<< ((off ^^^ (if rev then 7 else 0)) &&& 7) with hmdef
  have hm : m < 256 := by
    rw [hmdef, Nat.one_shiftLeft]
    calc 2 ^ ((off ^^^ (if rev then 7 else 0)) &&& 7) ≤ 2 ^ 7 :=
      Nat.pow_le_pow_right (by norm_num) Nat.and_le_right
      _ < 256 := by norm_num
  have hx : data.getD (off / 8) 0 < 256 := getD_lt_256 data hb (off / 8)
  have hor : data.getD (off / 8) 0 ||| m < 256 := by
    have h8 : (256 : Nat) = 2 ^ 8 := by norm_num
    rw [h8] at hx hm ⊢
    exact Nat.or_lt_two_pow hx hm
  have hv : (data.getD (off / 8) 0 ||| m) % 256 =
      data.getD (off / 8) 0 ||| m := Nat.mod_eq_of_lt hor
  simp only [SetSingleBit, if_pos hbo, ← hmdef, hv]
  have hset : (data.set (off / 8) (data.getD (off / 8) 0 ||| m)).length
      = data.length := by simp
  have hgd : (data.set (off / 8) (data.getD (off / 8) 0 ||| m)).getD
      (off / 8) 0 = data.getD (off / 8) 0 ||| m := by
    rw [List.getD_eq_getElem?_getD, List.getElem?_set_self hbo]
    rfl
  refine ⟨?_, ?_, ?_⟩
  · rw [if_pos (by rw [hset]; exact hbo), hgd, Nat.or_assoc, Nat.or_self,
      hv, List.set_set]
  · intro j k hjk
    by_cases hj : j = off / 8
    · subst hj
      rw [hgd, Nat.testBit_or, hjk, Bool.true_or]
    · rw [List.getD_eq_getElem?_getD, List.getElem?_set_ne (by omega),
        ← List.getD_eq_getElem?_getD]
      exact hjk
  · rw [hbridge]
    simp only [SetSingleBit, if_pos hbo, ← hmdef, hv]

/-- Witness for C9 at a concrete input. -/
theorem setSingleBit_idempotent_monotone_witness :
    SetSingleBit (SetSingleBit [0] 0 false) 0 false =
      SetSingleBit [0] 0 false ∧
    (∀ j k, Nat.testBit (([0] : List Nat).getD j 0) k = true →
      Nat.testBit ((SetSingleBit [0] 0 false).getD j 0) k = true) ∧
    SetBit [0] 0 false = some (SetSingleBit [0] 0 false) :=
  setSingleBit_idempotent_monotone [0] 0 false (by decide) (by decide)

/-- C5.  The claim says an out-of-range `SetBit` is a no-op.  That matches
the spec and the guarded split-library revision `SetSingleBit`, but the
`SetBit` in `BitString.cpp` performs the `std::span` access with no bounds
check (only an `assert`), so an out-of-range offset is an assertion
failure / out-of-bounds write, not a no-op: at `bitOffset = 8` on the
one-byte buffer `[0]` the model faults (`none`) while `SetSingleBit`
returns the buffer unchanged. -/
theorem setBit_out_of_range_failing_input :
    SetBit [0] 8 false = none ∧ SetBit [0] 8 true = none ∧
    SetSingleBit [0] 8 false = [0] ∧ SetSingleBit [0] 8 true = [0] :=
  ⟨rfl, rfl, rfl, rfl⟩

theorem loadBytes_add (d : List Nat) (b l1 l2 : Nat) :
    loadBytes d b (l1 + l2) = loadBytes d b l1 ++ loadBytes d (b + l1) l2 := by
  induction l1 generalizing b with
  | zero => simp [loadBytes]
  | succ k ih =>
    rw [show k + 1 + l2 = (k + l2) + 1 by omega]
    rw [loadBytes, loadBytes, ih (b + 1), List.cons_append,
      show b + 1 + k = b + (k + 1) by omega]

theorem bytesToNat_append (a c : List Nat) :
    bytesToNat (a ++ c) = bytesToNat a + 256 ^ a.length * bytesToNat c := by
  induction a with
  | nil => simp [bytesToNat]
  | cons x r ih =>
    rw [List.cons_append, bytesToNat, bytesToNat, ih, List.length_cons]
    ring

theorem bytesToNat_zero_entries (l : List Nat) (h : ∀ x ∈ l, x = 0) :
    bytesToNat l = 0 := by
  induction l with
  | nil => rfl
  | cons x r ih =>
    rw [bytesToNat, h x (List.mem_cons_self x r),
      ih (fun y hy => h y (List.mem_cons_of_mem _ hy))]

theorem loadBytes_mem_eq_zero (d : List Nat) (b l : Nat)
    (h : ∀ i, i < l → d.getD (b + i) 0 = 0) :
    ∀ x ∈ loadBytes d b l, x = 0 := by
  induction l generalizing b with
  | zero => intro x hx; simp [loadBytes] at hx
  | succ k ih =>
    intro x hx
    simp only [loadBytes, List.mem_cons] at hx
    rcases hx with hh | hh
    · rw [hh]
      simpa using h 0 (by omega)
    · exact ih (b + 1) (fun i hi => by
        have := h (i + 1) (by omega)
        rwa [show b + (i + 1) = b + 1 + i by omega] at this) x hh

theorem bytesToNat_loadBytes_zero_pad (d : List Nat) (b l1 l2 : Nat)
    (h12 : l1 ≤ l2) (hz : ∀ i, l1 ≤ i → i < l2 → d.getD (b + i) 0 = 0) :
    bytesToNat (loadBytes d b l2) = bytesToNat (loadBytes d b l1) := by
  rw [show l2 = l1 + (l2 - l1) by omega, loadBytes_add, bytesToNat_append,
    bytesToNat_zero_entries (loadBytes d (b + l1) (l2 - l1))
      (loadBytes_mem_eq_zero d (b + l1) (l2 - l1) (fun i hi => by
        have := hz (l1 + i) (by omega) (by omega)
        rwa [show b + (l1 + i) = b + l1 + i by omega] at this))]
  ring

/-- C4 (amended).  Out-of-range reads with `LittleEndianEncoding` whose
`size_t` span computation does not wrap
(`bitOffset + bitWidth + 7 < 2 ^ 64`) behave exactly as if the buffer were
extended with zero bytes: appending any number of zero bytes does not
change the result, so the in-range bits land in their positions and the
missing high bits read as zero.  (The unamended claim is false twice over:
with `BigEndianEncoding` the clamped span is right-shifted relative to the
zero-extended read, see the counterexample; and at offsets where the
`size_t` sum wraps the `memcpy` size underflows, which is undefined
behaviour rather than any return.) -/
theorem readBitString_out_of_range_little_zero_extend (data : List Nat) (off w m : Nat) (hw : w ≤ 32)
    (hout : 8 * data.length < off + w) (hnw : off + w + 7 < 2 ^ 64) :
    ReadBitString (data ++ List.replicate m 0) off w Endianness.little =
      ReadBitString data off w Endianness.little := by
  have hmod : (off + w + 7) % 2 ^ 64 = off + w + 7 := Nat.mod_eq_of_lt hnw
  have hlen : (data ++ List.replicate m 0).length = data.length + m := by
    simp
  have hgd : ∀ j, (data ++ List.replicate m 0).getD j 0 = data.getD j 0 := by
    intro j
    rw [List.getD_eq_getElem?_getD, List.getD_eq_getElem?_getD]
    by_cases hj : j < data.length
    · rw [List.getElem?_append_left hj]
    · rw [List.getElem?_append_right (by omega), List.getElem?_replicate,
        List.getElem?_eq_none (by omega)]
      split <;> rfl
  simp only [ReadBitString, if_neg (show ¬ w > 32 by omega), hlen, hmod,
    if_neg (show ¬ (min ((off + w + 7) / 8) (data.length + m) <
      min (off / 8) (data.length + m)) by omega),
    if_neg (show ¬ (min ((off + w + 7) / 8) data.length <
      min (off / 8) data.length) by omega),
    Endianness.isBig, Bool.false_eq_true, if_false]
  by_cases hcase : off / 8 ≤ data.length
  · have hb1 : min (off / 8) (data.length + m) = off / 8 := by omega
    have hb2 : min (off / 8) data.length = off / 8 := by omega
    have he2 : min ((off + w + 7) / 8) data.length = data.length := by omega
    rw [hb1, hb2, he2,
      loadBytes_congr (data ++ List.replicate m 0) data (off / 8) (off / 8)
        _ (fun i _ => hgd (off / 8 + i)),
      bytesToNat_loadBytes_zero_pad data (off / 8) (data.length - off / 8)
        (min ((off + w + 7) / 8) (data.length + m) - off / 8) (by omega)
        (fun i hi1 hi2 => List.getD_eq_default _ _ (by omega))]
  · have he2 : min ((off + w + 7) / 8) data.length = data.length := by omega
    have hb2 : min (off / 8) data.length = data.length := by omega
    rw [hb2, he2, Nat.sub_self,
      loadBytes_congr (data ++ List.replicate m 0) data
        (min (off / 8) (data.length + m)) (min (off / 8) (data.length + m))
        _ (fun i _ => hgd _),
      bytesToNat_loadBytes_zero_pad data (min (off / 8) (data.length + m)) 0
        (min ((off + w + 7) / 8) (data.length + m) -
          min (off / 8) (data.length + m)) (by omega)
        (fun i hi1 hi2 => List.getD_eq_default _ _ (by omega))]
    rfl

/-- Counterexample for C4 as stated: a 16-bit big-endian read at offset 0
of the one-byte buffer `[255]` returns `255`, but the same read of the
zero-extended buffer `[255, 0]` returns `65280` — the in-range bits are
not shifted into the positions the zero-extension semantics demands. -/
theorem readBitString_out_of_range_big_counterexample :
    ReadBitString [255] 0 16 Endianness.big = Except.ok 255 ∧
    ReadBitString [255, 0] 0 16 Endianness.big = Except.ok 65280 ∧
    (255 : Nat) ≠ 65280 :=
  ⟨rfl, rfl, by decide⟩

/-- Witness for C4 at a concrete input: a 16-bit little-endian read past
the end of `[255]` agrees with the read of the zero-extended buffer. -/
theorem readBitString_out_of_range_little_zero_extend_witness :
    ReadBitString ([255] ++ List.replicate 1 0) 0 16 Endianness.little =
      ReadBitString [255] 0 16 Endianness.little :=
  readBitString_out_of_range_little_zero_extend [255] 0 16 1 (by decide)
    (by decide) (by norm_num)
